import Mathlib

/-!
Verification development for the trial-filtering core (`patient.py`, `apis.py`).

Text is modelled as `List Char` (one element per Python character, matching
Python's `len`/slicing). The two regular expressions of the source are
embedded as backtracking matchers with Python `re` semantics (leftmost match,
greedy quantifiers with backtracking, non-overlapping `findall`). External
services (AWS Comprehend Medical entity detection, the UMLS crosswalk
endpoint) are passed in as explicit oracles; a service exception is `none`.
`eval` of the interpolated comparison string is modelled by `pyEval`,
restricted to the `<number> <operator> <number>` shapes reachable from this
code path; strings outside that grammar are modelled as raising (`none`),
as CPython raises `SyntaxError`/`TypeError` on them.
-/

/-- Python `\s` character class (ASCII range). -/
def isPyWs (c : Char) : Bool :=
  c == ' ' || c == '\t' || c == '\n' || c == '\r' || c == '\x0b' || c == '\x0c'

/-- The character class `[\>\=\<]` used by both source regexes. -/
def isOpChar (c : Char) : Bool :=
  c == '>' || c == '=' || c == '<'

/-- Python `\w` (ASCII range; the scanned text has been `.lower()`ed). -/
def isWordChar (c : Char) : Bool :=
  c.isAlphanum || c == '_'

/-- Lowercase a character list, modelling Python `str.lower` on ASCII text. -/
def toLowerL (cs : List Char) : List Char :=
  cs.map Char.toLower

/-- Python `s.replace('\r\n', ' ')`: left-to-right, non-overlapping. -/
def replCRLF : List Char → List Char
  | '\r' :: '\n' :: rest => ' ' :: replCRLF rest
  | c :: rest => c :: replCRLF rest
  | [] => []

/-- Python `' '.join(xs)`. -/
def joinSpace : List (List Char) → List Char
  | [] => []
  | [x] => x
  | x :: y :: ys => x ++ ' ' :: joinSpace (y :: ys)

/-- Python `needle in hay` substring test. -/
def containsSub (nd : List Char) : List Char → Bool
  | [] => nd.isEmpty
  | c :: rest => nd.isPrefixOf (c :: rest) || containsSub nd rest

/-! ## A small backtracking regex engine

Continuation-passing matchers over `List Char`.  Greedy quantifiers try the
longest repetition first and backtrack through shorter ones, which is exactly
CPython `re` behaviour for the character-class quantifiers appearing in the
two source patterns. -/

/-- Try `f n`, `f (n-1)`, ..., `f 1`, first success wins. -/
def tryFrom {r : Type} (f : Nat → Option r) : Nat → Option r
  | 0 => none
  | n + 1 => f (n + 1) <|> tryFrom f n

/-- Greedy `c?` for a character class. -/
def optChar {r : Type} (p : Char → Bool) (cs : List Char)
    (k : List Char → Option r) : Option r :=
  match cs with
  | c :: rest => if p c then k rest <|> k cs else k cs
  | [] => k cs

/-- Greedy `c+` for a character class. -/
def plusGreedy {r : Type} (p : Char → Bool) (cs : List Char)
    (k : List Char → Option r) : Option r :=
  tryFrom (fun i => k (cs.drop i)) (cs.takeWhile p).length

/-- Greedy `c*` for a character class. -/
def starGreedy {r : Type} (p : Char → Bool) (cs : List Char)
    (k : List Char → Option r) : Option r :=
  tryFrom (fun i => k (cs.drop i)) (cs.takeWhile p).length <|> k cs

/-- A literal word. -/
def litWord {r : Type} (w : List Char) (cs : List Char)
    (k : List Char → Option r) : Option r :=
  if w.isPrefixOf cs then k (cs.drop w.length) else none

/-- The alternation `hemoglobin|platelets|leukocytes` (group 2 capture). -/
def altCell {r : Type} (cs : List Char) (k : String → List Char → Option r) :
    Option r :=
  litWord "hemoglobin".data cs (k "hemoglobin") <|>
  litWord "platelets".data cs (k "platelets") <|>
  litWord "leukocytes".data cs (k "leukocytes")

/-- The trailing optional group `(\^\d*)?`. -/
def caretOpt {r : Type} (cs : List Char) (k : List Char → Option r) :
    Option r :=
  (match cs with
   | '^' :: rest => starGreedy Char.isDigit rest k
   | _ => none) <|> k cs

/-- Attempt the `find_conditions` pattern
`(\[?(hemoglobin|platelets|leukocytes)\]?\s?[\>\=\<]+\s?\d+[\.\,]?\d*\s?\w+\/?\s?\w+(\^\d*)?)`
at the head of `cs`; on success return the captured cell type (group 2) and
the remaining input. -/
def condMatchAt (cs : List Char) : Option (String × List Char) :=
  optChar (fun c => c == '[') cs (fun cs1 =>
  altCell cs1 (fun ct cs2 =>
  optChar (fun c => c == ']') cs2 (fun cs3 =>
  optChar isPyWs cs3 (fun cs4 =>
  plusGreedy isOpChar cs4 (fun cs5 =>
  optChar isPyWs cs5 (fun cs6 =>
  plusGreedy Char.isDigit cs6 (fun cs7 =>
  optChar (fun c => c == '.' || c == ',') cs7 (fun cs8 =>
  starGreedy Char.isDigit cs8 (fun cs9 =>
  optChar isPyWs cs9 (fun cs10 =>
  plusGreedy isWordChar cs10 (fun cs11 =>
  optChar (fun c => c == '/') cs11 (fun cs12 =>
  optChar isPyWs cs12 (fun cs13 =>
  plusGreedy isWordChar cs13 (fun cs14 =>
  caretOpt cs14 (fun cs15 => some (ct, cs15))))))))))))))))

/-- `re.findall` scan for `condMatchAt`: leftmost, non-overlapping, resuming
after each match.  Every match of this pattern consumes at least one
character, so fuel equal to the input length is exact. -/
def findAllAux : Nat → List Char → List (String × String)
  | 0, _ => []
  | _ + 1, [] => []
  | n + 1, c :: rest =>
    match condMatchAt (c :: rest) with
    | some (ct, rem) =>
      let consumed := (c :: rest).length - rem.length
      if consumed == 0 then findAllAux n rest
      else (String.mk ((c :: rest).take consumed), ct) :: findAllAux n rem
    | none => findAllAux n rest

/-- All matches of the `find_conditions` pattern, as `(whole match, cell type)`
pairs (`match[0]`, `match[1]` in the source). -/
def findAll (cs : List Char) : List (String × String) :=
  findAllAux cs.length cs

/-- Attempt the `convert_expressions` pattern `(\s?[\>\=\<]+\s?\d+[\,\.]?\d*)`
at the head of `cs`, returning the remaining input on success. -/
def narrowMatchAt (cs : List Char) : Option (List Char) :=
  optChar isPyWs cs (fun c1 =>
  plusGreedy isOpChar c1 (fun c2 =>
  optChar isPyWs c2 (fun c3 =>
  plusGreedy Char.isDigit c3 (fun c4 =>
  optChar (fun c => c == ',' || c == '.') c4 (fun c5 =>
  starGreedy Char.isDigit c5 (fun c6 => some c6))))))

/-- First (leftmost) match of the `convert_expressions` pattern, i.e.
`pattern.findall(condition)[0]` when a match exists. -/
def narrowFirst : List Char → Option (List Char)
  | [] => none
  | c :: rest =>
    match narrowMatchAt (c :: rest) with
    | some rem => some ((c :: rest).take ((c :: rest).length - rem.length))
    | none => narrowFirst rest

/-! ## Model of `eval(lab_value + converted_condition)`

The strings reaching `eval` here are a lab-value string concatenated with an
operator-and-number fragment.  `pyEval` parses `<number> <op-run> <number>`
(decimal literals, optional leading minus, CPython's leading-zero rule) and
returns the truthiness of the resulting comparison or shift; every other
string is modelled as an exception (`none`), as CPython raises on it. -/

/-- Skip spaces and tabs (whitespace legal inside a one-line expression). -/
def skipSpTab (cs : List Char) : List Char :=
  cs.dropWhile (fun c => c == ' ' || c == '\t')

/-- Numeric value of a digit string. -/
def digitsToNat (ds : List Char) : Nat :=
  ds.foldl (fun a c => a * 10 + (c.toNat - 48)) 0

/-- CPython decimal integer literal validity: no leading zero unless the
literal is all zeros. -/
def validIntLit (ds : List Char) : Bool :=
  match ds with
  | [] => false
  | c :: rest => c != '0' || rest.all (fun d => d == '0')

/-- Parse a Python numeric literal with optional leading minus.  Returns
`(numerator, scale, isFloat, rest)` with value `numerator / 10 ^ scale`. -/
def parsePyNum (cs : List Char) : Option (Int × Nat × Bool × List Char) :=
  let p := match cs with
    | '-' :: rest => (true, skipSpTab rest)
    | _ => (false, cs)
  let neg := p.1
  let d1 := p.2.takeWhile Char.isDigit
  let cs2 := p.2.dropWhile Char.isDigit
  let sign : Nat → Int := fun n => if neg then -(n : Int) else (n : Int)
  match cs2 with
  | '.' :: cs3 =>
    let d2 := cs3.takeWhile Char.isDigit
    let cs4 := cs3.dropWhile Char.isDigit
    if d1.isEmpty && d2.isEmpty then none
    else some (sign (digitsToNat (d1 ++ d2)), d2.length, true, cs4)
  | _ =>
    if validIntLit d1 then some (sign (digitsToNat d1), 0, false, cs2) else none

/-- Truthiness of `a >> b` on Python ints. -/
def shiftRightTruthy (a : Int) (b : Nat) : Bool :=
  if a = 0 then false else if a < 0 then true else decide ((2 : Int) ^ b ≤ a)

/-- Model of CPython `eval` on the comparison strings built by the filter:
`<number><op-run><number>` with optional spaces/tabs.  Valid operator runs are
`>`, `<`, `>=`, `<=`, `==` (comparisons) and `<<`, `>>` (int-only shifts,
truthiness of the result); any other shape raises (`none`). -/
def pyEval (cs : List Char) : Option Bool :=
  match parsePyNum (skipSpTab cs) with
  | none => none
  | some (n1, s1, f1, r1) =>
    let r1b := skipSpTab r1
    let ops := r1b.takeWhile isOpChar
    let r2 := r1b.dropWhile isOpChar
    match parsePyNum (skipSpTab r2) with
    | none => none
    | some (n2, s2, f2, r3) =>
      if !(r3.all isPyWs) then none
      else
        let a := n1 * (10 : Int) ^ s2
        let b := n2 * (10 : Int) ^ s1
        if ops == ['>'] then some (decide (b < a))
        else if ops == ['<'] then some (decide (a < b))
        else if ops == ['>', '='] then some (decide (b ≤ a))
        else if ops == ['<', '='] then some (decide (a ≤ b))
        else if ops == ['=', '='] then some (decide (a = b))
        else if ops == ['<', '<'] then
          if f1 || f2 || n2 < 0 then none else some (decide (n1 ≠ 0))
        else if ops == ['>', '>'] then
          if f1 || f2 || n2 < 0 then none else some (shiftRightTruthy n1 n2.toNat)
        else none

example : findAll "hemoglobin >= 10 g/dl platelets >= 100000/ul leukocytes >= 3000/mcl".data =
    [("hemoglobin >= 10 g/dl", "hemoglobin"),
     ("platelets >= 100000/ul", "platelets"),
     ("leukocytes >= 3000/mcl", "leukocytes")] := by decide

example : narrowFirst "platelets >= 100,000/ul".data = some " >= 100,000".data := by decide

example : narrowFirst "plateletsdecreased".data = none := by decide

example : pyEval "4500 >= 3000".data = some true := by decide

example : pyEval "90000 >= 100000".data = some false := by decide

example : pyEval "90 = 100".data = none := by decide

/-! ## Data model -/

/-- One element of a trial's `eligibility.unstructured` array (the fields the
code reads through the jsonpath
`$.eligibility.unstructured[?inclusion_indicator=true].description`). -/
structure UnstructuredEntry where
  inclusion_indicator : Bool
  description : String
deriving DecidableEq

/-- A trial, restricted to the fields this core reads and writes:
`trial_json` stands for the trial's JSON, of which only the
`eligibility.unstructured` array is consumed, and `filter_condition` is the
decision list the filter attaches. -/
structure Trial where
  nci_id : String
  trial_json : List UnstructuredEntry
  filter_condition : List (String × Bool)
deriving DecidableEq

/-- An entity returned by the AWS Comprehend Medical `detect_entities` call:
its `Text` and the `Text` of each of its `Attributes`. -/
structure Entity where
  Text : String
  Attributes : List String
deriving DecidableEq

/-- The entity-detection oracle: one call per chunk of text; `none` models the
call raising (caught by the source's per-chunk `except`). -/
def DetectOracle : Type := List Char → Option (List Entity)

/-- The value stored in the code-info dict `trialset['ncit']`; the
orchestrator reads its `'ncit'` key and passes the whole value through to the
output groups. -/
structure NcitEntry where
  ncit : String
deriving DecidableEq

/-- One input group of `filter_by_inclusion_criteria`. -/
structure TrialSet where
  ncit : NcitEntry
  trials : List Trial
deriving DecidableEq

/-- One output group of `filter_by_inclusion_criteria`. -/
structure OutGroup where
  ncit : NcitEntry
  trials : List Trial
deriving DecidableEq

instance {e a : Type} [DecidableEq e] [DecidableEq a] : DecidableEq (Except e a) := fun x y =>
  match x, y with
  | .ok v, .ok w => if h : v = w then isTrue (by rw [h]) else isFalse (by simp [h])
  | .error v, .error w => if h : v = w then isTrue (by rw [h]) else isFalse (by simp [h])
  | .ok _, .error _ => isFalse (by simp)
  | .error _, .ok _ => isFalse (by simp)

/-- Python-dict `get` on an association list (insertion-ordered). -/
def alGet {α : Type} (m : List (String × α)) (k : String) : Option α :=
  match m with
  | [] => none
  | (k2, v) :: rest => if k2 == k then some v else alGet rest k

/-- Python-dict assignment `m[k] = v`: replace in place if the key exists,
else append (insertion order preserved). -/
def alUpsert {α : Type} (m : List (String × α)) (k : String) (v : α) :
    List (String × α) :=
  match m with
  | [] => [(k, v)]
  | (k2, v2) :: rest =>
    if k2 == k then (k2, v) :: rest else (k2, v2) :: alUpsert rest k v

/-- The patient's lab results by cell type: `cellType -> (value, unit)`. -/
def LabResults : Type := List (String × String × String)

/-- The three tracked cell types, in source order. -/
def cellTypes : List String := ["hemoglobin", "platelets", "leukocytes"]

/-! ## `split_description` and the Comprehend chunker -/

/-- Recursion core of `split_description`, with explicit fuel so that the
definition reduces inside the kernel; fuel equal to the string length is
always sufficient, since each loop iteration consumes `limit >= 1`
characters.  The `0 < limit` conjunct is a totality guard only: the source
loops forever when `limit = 0`, and every caller fixes `limit = 19999`. -/
def splitAux : Nat → List Char → Nat → List (List Char)
  | 0, cs, _ => [cs]
  | fuel + 1, cs, limit =>
    if limit < cs.length ∧ 0 < limit then
      cs.take limit :: splitAux fuel (cs.drop limit) limit
    else [cs]

/-- `split_description(description, limit)`. -/
def split_description (cs : List Char) (limit : Nat) : List (List Char) :=
  splitAux cs.length cs limit

/-- The `get_description` generator inside `get_mapping_with_aws_comprehend`:
`data` is the pending buffer, entries longer than the limit are split and
yielded immediately (the buffer is kept), a full buffer is yielded before
starting a new one, and the final buffer is always yielded. -/
def chunksAux (limit : Nat) : List (List Char) → List Char → List (List Char)
  | [], data => [data]
  | d :: rest, data =>
    if limit < d.length then
      split_description d limit ++ chunksAux limit rest data
    else if limit < data.length + d.length then
      data :: chunksAux limit rest d
    else
      chunksAux limit rest (data ++ d)

/-- Per-entry preprocessing in the generator:
`match.value.replace('\r\n', ' ').lower().replace(',', '')`. -/
def preprocessEntry (d : String) : List Char :=
  (toLowerL (replCRLF d.data)).filter (fun c => c != ',')

/-- All chunks the generator yields for the given descriptions
(`limit = 19999` as in the source). -/
def getDescriptionChunks (descs : List String) : List (List Char) :=
  chunksAux 19999 (descs.map preprocessEntry) []

/-- `get_mapping_with_aws_comprehend`: call the detection oracle once per
chunk (a failed call contributes nothing), and record
`conditions[entity['Text']] = entity['Text'] + entity['Attributes'][0]['Text']`
for every entity whose lowercased text equals a tracked cell type and which
has a non-empty attribute list. -/
def get_mapping_with_aws_comprehend (detect : DetectOracle)
    (descs : List String) : List (String × String) :=
  (getDescriptionChunks descs).foldl
    (fun acc chunk =>
      match detect chunk with
      | none => acc
      | some ents =>
        ents.foldl
          (fun acc2 ent =>
            if cellTypes.any (fun ct => ct == String.mk (toLowerL ent.Text.data)) then
              match ent.Attributes with
              | [] => acc2
              | a :: _ => alUpsert acc2 ent.Text (ent.Text ++ a)
            else acc2)
          acc)
    []

/-! ## `find_conditions` -/

/-- The descriptions selected by the jsonpath
`$.eligibility.unstructured[?inclusion_indicator=true].description`; these are
what the fallback receives. -/
def inclusionDescs (trial_json : List UnstructuredEntry) : List String :=
  (trial_json.filter (fun e => e.inclusion_indicator)).map (fun e => e.description)

/-- The joined, lowercased description `find_conditions` scans: entries
mentioning a tracked cell type, `'\r\n'` replaced, joined with spaces. -/
def joinedDescription (trial_json : List UnstructuredEntry) : List Char :=
  joinSpace (((inclusionDescs trial_json).filter
    (fun d => cellTypes.any (fun ct => containsSub ct.data (toLowerL d.data)))).map
    (fun d => toLowerL (replCRLF d.data)))

/-- `find_conditions`, instrumented with a flag recording whether the
entity-detection fallback `get_mapping_with_aws_comprehend` was invoked. -/
def find_conditionsF (detect : DetectOracle) (trial_json : List UnstructuredEntry) :
    List (String × String) × Bool :=
  let descs := inclusionDescs trial_json
  let description := joinedDescription trial_json
  if description.isEmpty then ([], false)
  else
    let ms := findAll description
    if ms.isEmpty then (get_mapping_with_aws_comprehend detect descs, true)
    else
      let conditions := ms.foldl (fun acc m => alUpsert acc m.2 m.1) []
      if conditions.length == 3 then (conditions, false)
      else (get_mapping_with_aws_comprehend detect descs, true)

/-- `find_conditions(trial)`: `{cell_type -> condition text}`. -/
def find_conditions (detect : DetectOracle) (trial_json : List UnstructuredEntry) :
    List (String × String) :=
  (find_conditionsF detect trial_json).1

/-! ## `convert_expressions` and per-condition evaluation -/

/-- `convert_expressions(lab_value, condition)`: extract the first
operator-and-number fragment of the condition (commas stripped); when the
narrower regex finds nothing, return the sentinel `("0", "")`; otherwise
return the lab value string (first tuple component) and the fragment. -/
def convert_expressions (lab_value : String × String) (condition : String) :
    String × String :=
  match narrowFirst condition.data with
  | none => ("0", "")
  | some m => (lab_value.1, String.mk (m.filter (fun c => c != ',')))

/-- One iteration of the condition loop in `filter_trials_from_description`:
a missing lab value passes; then
`if (lab_value != "0") and eval(lab_value + converted_condition)` decides the
condition, so a `"0"` lab value short-circuits into the failure branch.
`Except.error` models `eval` raising. -/
def evalCond (labs : LabResults) (ct condition : String) : Except Unit Bool :=
  match alGet labs ct with
  | none => .ok true
  | some lv =>
    let p := convert_expressions lv condition
    if p.1 = "0" then .ok false
    else
      match pyEval (p.1 ++ p.2).data with
      | none => .error ()
      | some b => .ok b

/-- The condition loop: decisions in iteration order plus the final
`include_trail` flag (the conjunction of the decisions). -/
def processConds (labs : LabResults) :
    List (String × String) → Except Unit (List (String × Bool) × Bool)
  | [] => .ok ([], true)
  | (ct, condition) :: rest =>
    match evalCond labs ct condition with
    | .error e => .error e
    | .ok b =>
      match processConds labs rest with
      | .error e => .error e
      | .ok (ds, inc) => .ok ((condition, b) :: ds, inc && b)

/-- The per-trial body of `filter_trials_from_description`: extract
conditions, attach the decision list, and return the include flag.  A trial
with no conditions gets `('No Inclusion Criteria Found', True)` and is
included. -/
def processTrial (detect : DetectOracle) (labs : LabResults) (t : Trial) :
    Except Unit (Trial × Bool) :=
  let conds := find_conditions detect t.trial_json
  if conds.isEmpty then
    .ok ({ t with filter_condition := [("No Inclusion Criteria Found", true)] }, true)
  else
    match processConds labs conds with
    | .error e => .error e
    | .ok (ds, inc) => .ok ({ t with filter_condition := ds }, inc)

/-- `filter_trials_from_description(trials, lab_results)`: partition the
trials in order into `(filtered_trials, excluded_trials)`; an uncaught
exception from any trial aborts the whole call. -/
def filter_trials_from_description (detect : DetectOracle) (trials : List Trial)
    (labs : LabResults) : Except Unit (List Trial × List Trial) :=
  match trials with
  | [] => .ok ([], [])
  | t :: rest =>
    match processTrial detect labs t with
    | .error e => .error e
    | .ok (t2, inc) =>
      match filter_trials_from_description detect rest labs with
      | .error e => .error e
      | .ok (f, ex) => .ok (if inc then (t2 :: f, ex) else (f, t2 :: ex))

/-! ## `filter_by_inclusion_criteria` -/

/-- Recursion core of the per-code chunking loop, with explicit fuel so the
definition reduces inside the kernel; fuel equal to the list length is always
sufficient since each chunk consumes at least one trial. -/
def chunkAux : Nat → List Trial → List (List Trial)
  | 0, ts => [ts]
  | fuel + 1, ts =>
    if 10 < ts.length then ts.take 10 :: chunkAux fuel (ts.drop 10)
    else [ts]

/-- The chunking of one code's trial list (`max_trials_in_future = 10`):
a list of at most 10 trials is one task (including an empty list); longer
lists are cut into consecutive chunks of 10 with a final chunk of 1-10. -/
def chunkTrials (ts : List Trial) : List (List Trial) :=
  chunkAux ts.length ts

/-- The tasks spawned by the orchestrator, in spawn order, each carrying the
code-info value `trialset['ncit']` of its trial set. -/
def chunk_tasks (tbn : List TrialSet) : List (NcitEntry × List Trial) :=
  (tbn.map (fun ts => (chunkTrials ts.trials).map (fun c => (ts.ncit, c)))).flatten

/-- Run every chunk task; an exception in any task aborts the fan-in (the
source crashes unpacking a dead greenlet's `value`). -/
def runTasks (detect : DetectOracle) (labs : LabResults) :
    List (NcitEntry × List Trial) →
    Except Unit (List (NcitEntry × List Trial × List Trial))
  | [] => .ok []
  | (r, c) :: rest =>
    match filter_trials_from_description detect c labs with
    | .error e => .error e
    | .ok fe =>
      match runTasks detect labs rest with
      | .error e => .error e
      | .ok rs => .ok ((r, fe.1, fe.2) :: rs)

/-- One entry of the fan-in accumulator: the three dicts `filtered`,
`excluded` and `ncit_codes` of the source share their key set and insertion
order, so they are modelled as one association list. -/
structure Merged where
  key : String
  ref : NcitEntry
  fts : List Trial
  ets : List Trial
deriving DecidableEq

/-- Fold one completed task into the accumulator: lists extend an existing
entry of the same code; a new code appends an entry (keeping the first task's
code-info value, as `ncit_codes` does). -/
def mergeInto (acc : List Merged) (r : NcitEntry) (f e : List Trial) :
    List Merged :=
  if acc.any (fun m => m.key == r.ncit) then
    acc.map (fun m =>
      if m.key == r.ncit then { m with fts := m.fts ++ f, ets := m.ets ++ e }
      else m)
  else acc ++ [⟨r.ncit, r, f, e⟩]

/-- Fan-in merge of all completed tasks.  The source's `iwait` yields tasks in
completion order; the merged groups are modelled in spawn order, which agrees
with the source up to group order and is immaterial to the stated claims. -/
def mergeResults (rs : List (NcitEntry × List Trial × List Trial)) :
    List Merged :=
  rs.foldl (fun acc r => mergeInto acc r.1 r.2.1 r.2.2) []

/-- `filter_by_inclusion_criteria(trials_by_ncit, lab_results)`: spawn the
chunk tasks, run them all, and merge into
`(filtered_trials_by_ncit, excluded_trials_by_ncit)`. -/
def filter_by_inclusion_criteria (detect : DetectOracle) (tbn : List TrialSet)
    (labs : LabResults) : Except Unit (List OutGroup × List OutGroup) :=
  match runTasks detect labs (chunk_tasks tbn) with
  | .error e => .error e
  | .ok rs =>
    let m := mergeResults rs
    .ok (m.map (fun x => ⟨x.ref, x.fts⟩), m.map (fun x => ⟨x.ref, x.ets⟩))

/-! ## `apis.py`: the UMLS crosswalk -/

/-- One candidate of the crosswalk response's `result` array (the fields the
jmespath expression reads). -/
structure Candidate where
  ui : String
  name : String
deriving DecidableEq

/-- A crosswalk HTTP response: status code and decoded `result` array. -/
structure CrosswalkResponse where
  status_code : Nat
  result : List Candidate
deriving DecidableEq

/-- The jmespath selection
`result[?ui != 'TCGA' && ui != 'OMFAQ' && ui != 'MPN-SAF'].{...} | [0]`:
first candidate not in the exclusion list, or `None`. -/
def crosswalkSearch (resp : CrosswalkResponse) : Option Candidate :=
  (resp.result.filter (fun c =>
    c.ui != "TCGA" && c.ui != "OMFAQ" && c.ui != "MPN-SAF")).head?

/-- `UmlsApi.get_crosswalk` on an already-received response: a non-200 status
returns `(None, None)`; otherwise the code subscripts the jmespath result, so
an absent acceptable candidate raises `TypeError` (`.error`). -/
def get_crosswalk (resp : CrosswalkResponse) :
    Except Unit (Option String × Option String) :=
  if resp.status_code != 200 then .ok (none, none)
  else
    match crosswalkSearch resp with
    | some c => .ok (some c.ui, some c.name)
    | none => .error ()

/-- `UmlsApi.get_matches` over an oracle giving each code's response: each
code yields `(code, match-or-None)`; a task that raised makes the fan-in loop
crash while unpacking its `value`, aborting the whole batch. -/
def get_matches (responses : String → CrosswalkResponse) :
    List String → Except Unit (List (String × Option (String × String)))
  | [] => .ok []
  | code :: rest =>
    match get_crosswalk (responses code) with
    | .error e => .error e
    | .ok (some c, some d) =>
      match get_matches responses rest with
      | .error e => .error e
      | .ok out =>
        .ok ((code, if c != "" && d != "" then some (c, d) else none) :: out)
    | .ok (_, _) =>
      match get_matches responses rest with
      | .error e => .error e
      | .ok out => .ok ((code, none) :: out)

/-! ## Lemmas about condition evaluation -/

/-- A missing lab value forces the condition to pass. -/
theorem evalCond_missing (labs : LabResults) (ct condition : String)
    (h : alGet labs ct = none) : evalCond labs ct condition = .ok true := by
  unfold evalCond
  rw [h]

/-- A lab value whose value string is the literal `"0"` forces the condition
to fail, whatever the condition text. -/
theorem evalCond_zero (labs : LabResults) (ct condition : String)
    (lv : String × String) (h : alGet labs ct = some lv) (h0 : lv.1 = "0") :
    evalCond labs ct condition = .ok false := by
  unfold evalCond
  rw [h]
  unfold convert_expressions
  cases hn : narrowFirst condition.data with
  | none => simp
  | some m => simp [h0]

/-- When the narrower regex finds no operator-and-number fragment,
`convert_expressions` returns the sentinel `("0", "")`. -/
theorem convert_expressions_noMatch (lv : String × String) (condition : String)
    (hn : narrowFirst condition.data = none) :
    convert_expressions lv condition = ("0", "") := by
  unfold convert_expressions
  rw [hn]

/-- ...and therefore the condition fails whenever a lab value is present. -/
theorem evalCond_noMatch (labs : LabResults) (ct condition : String)
    (lv : String × String) (h : alGet labs ct = some lv)
    (hn : narrowFirst condition.data = none) :
    evalCond labs ct condition = .ok false := by
  simp [evalCond, h, convert_expressions_noMatch lv condition hn]

/-- Every condition of a completed condition loop was evaluated, and its
decision is recorded. -/
theorem processConds_mem (labs : LabResults) :
    ∀ (conds : List (String × String)) (ds : List (String × Bool)) (inc : Bool),
      processConds labs conds = .ok (ds, inc) →
      ∀ p ∈ conds, ∃ b, evalCond labs p.1 p.2 = .ok b ∧ (p.2, b) ∈ ds := by
  intro conds
  induction conds with
  | nil => intro ds inc _ p hp; exact absurd hp (List.not_mem_nil p)
  | cons hd tl ih =>
    obtain ⟨ct, condition⟩ := hd
    intro ds inc h p hp
    simp only [processConds] at h
    cases he : evalCond labs ct condition with
    | error e => rw [he] at h; exact absurd h (by simp)
    | ok b =>
      rw [he] at h
      cases hr : processConds labs tl with
      | error e => rw [hr] at h; exact absurd h (by simp)
      | ok pr =>
        obtain ⟨ds2, inc2⟩ := pr
        rw [hr] at h
        simp only [Except.ok.injEq, Prod.mk.injEq] at h
        obtain ⟨hds, hinc⟩ := h
        rcases List.mem_cons.mp hp with hph | hpt
        · subst hph
          exact ⟨b, he, by rw [← hds]; exact List.mem_cons_self _ _⟩
        · obtain ⟨b2, hb2, hmem⟩ := ih ds2 inc2 (by rw [hr]) p hpt
          exact ⟨b2, hb2, by rw [← hds]; exact List.mem_cons_of_mem _ hmem⟩

/-- The `include_trail` flag is false exactly when some condition evaluated
to false. -/
theorem processConds_inc (labs : LabResults) :
    ∀ (conds : List (String × String)) (ds : List (String × Bool)) (inc : Bool),
      processConds labs conds = .ok (ds, inc) →
      (inc = false ↔ ∃ p ∈ conds, evalCond labs p.1 p.2 = .ok false) := by
  intro conds
  induction conds with
  | nil =>
    intro ds inc h
    simp only [processConds, Except.ok.injEq, Prod.mk.injEq] at h
    simp [← h.2]
  | cons hd tl ih =>
    obtain ⟨ct, condition⟩ := hd
    intro ds inc h
    simp only [processConds] at h
    cases he : evalCond labs ct condition with
    | error e => rw [he] at h; exact absurd h (by simp)
    | ok b =>
      rw [he] at h
      cases hr : processConds labs tl with
      | error e => rw [hr] at h; exact absurd h (by simp)
      | ok pr =>
        obtain ⟨ds2, inc2⟩ := pr
        rw [hr] at h
        simp only [Except.ok.injEq, Prod.mk.injEq] at h
        obtain ⟨hds, hinc⟩ := h
        have htl := ih ds2 inc2 (by rw [hr])
        constructor
        · intro hfalse
          rw [← hinc] at hfalse
          rcases Bool.and_eq_false_iff.mp hfalse with h2 | hb
          · obtain ⟨p, hp, hpe⟩ := htl.mp h2
            exact ⟨p, List.mem_cons_of_mem _ hp, hpe⟩
          · exact ⟨(ct, condition), List.mem_cons_self _ _, by rw [he, hb]⟩
        · rintro ⟨p, hp, hpe⟩
          rcases List.mem_cons.mp hp with hph | hpt
          · subst hph
            rw [he] at hpe
            simp only [Except.ok.injEq] at hpe
            rw [← hinc, hpe]
            simp
          · have : inc2 = false := htl.mpr ⟨p, hpt, hpe⟩
            rw [← hinc, this]
            simp

/-- A decision list whose flag came out false records at least one failed
condition. -/
theorem processConds_false_mem (labs : LabResults) :
    ∀ (conds : List (String × String)) (ds : List (String × Bool)),
      processConds labs conds = .ok (ds, false) →
      ∃ d ∈ ds, d.2 = false := by
  intro conds ds h
  obtain ⟨p, hp, hpe⟩ := (processConds_inc labs conds ds false h).mp rfl
  obtain ⟨b, hb, hmem⟩ := processConds_mem labs conds ds false h p hp
  rw [hpe] at hb
  simp only [Except.ok.injEq] at hb
  exact ⟨(p.2, b), hmem, hb.symm⟩

/-! ## Lemmas about `filter_trials_from_description` -/

/-- When a trial has conditions, its processed form carries the loop's
decision list and flag. -/
theorem processTrial_conds (detect : DetectOracle) (labs : LabResults)
    (t t2 : Trial) (inc : Bool)
    (h : processTrial detect labs t = .ok (t2, inc))
    (hne : find_conditions detect t.trial_json ≠ []) :
    processConds labs (find_conditions detect t.trial_json) =
      .ok (t2.filter_condition, inc) ∧
    t2.trial_json = t.trial_json := by
  have hie : (find_conditions detect t.trial_json).isEmpty = false := by
    cases hcc : find_conditions detect t.trial_json with
    | nil => exact absurd hcc hne
    | cons a b => rfl
  simp only [processTrial, hie, Bool.false_eq_true, if_false] at h
  cases hp : processConds labs (find_conditions detect t.trial_json) with
  | error e => rw [hp] at h; exact absurd h (by simp)
  | ok pr =>
    obtain ⟨ds, inc2⟩ := pr
    rw [hp] at h
    simp only [Except.ok.injEq, Prod.mk.injEq] at h
    obtain ⟨ht2, hinc⟩ := h
    subst hinc
    constructor
    · rw [← ht2]
    · rw [← ht2]

/-- When a trial has no conditions, its processed form is the trial with the
default decision, included. -/
theorem processTrial_empty (detect : DetectOracle) (labs : LabResults)
    (t : Trial) (hc : find_conditions detect t.trial_json = []) :
    processTrial detect labs t =
      .ok ({ t with filter_condition := [("No Inclusion Criteria Found", true)] },
        true) := by
  unfold processTrial
  rw [hc]
  simp

/-- On a successful run, filtered and excluded counts sum to the input
count. -/
theorem filter_trials_length (detect : DetectOracle) (labs : LabResults) :
    ∀ (trials f e : List Trial),
      filter_trials_from_description detect trials labs = .ok (f, e) →
      f.length + e.length = trials.length := by
  intro trials
  induction trials with
  | nil =>
    intro f e h
    simp only [filter_trials_from_description, Except.ok.injEq, Prod.mk.injEq] at h
    rw [← h.1, ← h.2]
    rfl
  | cons t rest ih =>
    intro f e h
    simp only [filter_trials_from_description] at h
    cases hp : processTrial detect labs t with
    | error e2 => rw [hp] at h; exact absurd h (by simp)
    | ok pr =>
      obtain ⟨t2, inc⟩ := pr
      rw [hp] at h
      cases hr : filter_trials_from_description detect rest labs with
      | error e2 => rw [hr] at h; exact absurd h (by simp)
      | ok pr2 =>
        obtain ⟨f2, e2⟩ := pr2
        rw [hr] at h
        have hrec := ih f2 e2 (by rw [hr])
        cases inc with
        | true =>
          simp only [if_true, Except.ok.injEq, Prod.mk.injEq] at h
          rw [← h.1, ← h.2]
          simp only [List.length_cons]
          omega
        | false =>
          simp only [Bool.false_eq_true, if_false, Except.ok.injEq, Prod.mk.injEq] at h
          rw [← h.1, ← h.2]
          simp only [List.length_cons]
          omega

/-- On a successful run, every input trial was processed and its processed
form landed in the partition chosen by its include flag. -/
theorem filter_trials_mem (detect : DetectOracle) (labs : LabResults) :
    ∀ (trials f e : List Trial) (t : Trial),
      filter_trials_from_description detect trials labs = .ok (f, e) →
      t ∈ trials →
      ∃ t2 inc, processTrial detect labs t = .ok (t2, inc) ∧
        (inc = true → t2 ∈ f) ∧ (inc = false → t2 ∈ e) := by
  intro trials
  induction trials with
  | nil => intro f e t _ ht; exact absurd ht (List.not_mem_nil t)
  | cons hd rest ih =>
    intro f e t h ht
    simp only [filter_trials_from_description] at h
    cases hp : processTrial detect labs hd with
    | error e2 => rw [hp] at h; exact absurd h (by simp)
    | ok pr =>
      obtain ⟨t2, inc⟩ := pr
      rw [hp] at h
      cases hr : filter_trials_from_description detect rest labs with
      | error e2 => rw [hr] at h; exact absurd h (by simp)
      | ok pr2 =>
        obtain ⟨f2, e2⟩ := pr2
        rw [hr] at h
        rcases List.mem_cons.mp ht with hth | htt
        · subst hth
          refine ⟨t2, inc, hp, ?_, ?_⟩
          · intro hinc
            subst hinc
            simp only [if_true, Except.ok.injEq, Prod.mk.injEq] at h
            rw [← h.1]
            exact List.mem_cons_self _ _
          · intro hinc
            subst hinc
            simp only [Bool.false_eq_true, if_false, Except.ok.injEq, Prod.mk.injEq] at h
            rw [← h.2]
            exact List.mem_cons_self _ _
        · obtain ⟨t3, inc3, hp3, hf3, he3⟩ := ih f2 e2 t (by rw [hr]) htt
          refine ⟨t3, inc3, hp3, ?_, ?_⟩
          · intro hinc
            cases inc with
            | true =>
              simp only [if_true, Except.ok.injEq, Prod.mk.injEq] at h
              rw [← h.1]
              exact List.mem_cons_of_mem _ (hf3 hinc)
            | false =>
              simp only [Bool.false_eq_true, if_false, Except.ok.injEq, Prod.mk.injEq] at h
              rw [← h.1]
              exact hf3 hinc
          · intro hinc
            cases inc with
            | true =>
              simp only [if_true, Except.ok.injEq, Prod.mk.injEq] at h
              rw [← h.2]
              exact he3 hinc
            | false =>
              simp only [Bool.false_eq_true, if_false, Except.ok.injEq, Prod.mk.injEq] at h
              rw [← h.2]
              exact List.mem_cons_of_mem _ (he3 hinc)

/-- Every member of the excluded partition is the processed form of some
input trial whose include flag was false. -/
theorem filter_trials_excluded_src (detect : DetectOracle) (labs : LabResults) :
    ∀ (trials f e : List Trial) (x : Trial),
      filter_trials_from_description detect trials labs = .ok (f, e) →
      x ∈ e →
      ∃ t ∈ trials, processTrial detect labs t = .ok (x, false) := by
  intro trials
  induction trials with
  | nil =>
    intro f e x h hx
    simp only [filter_trials_from_description, Except.ok.injEq, Prod.mk.injEq] at h
    rw [← h.2] at hx
    exact absurd hx (List.not_mem_nil x)
  | cons hd rest ih =>
    intro f e x h hx
    simp only [filter_trials_from_description] at h
    cases hp : processTrial detect labs hd with
    | error e2 => rw [hp] at h; exact absurd h (by simp)
    | ok pr =>
      obtain ⟨t2, inc⟩ := pr
      rw [hp] at h
      cases hr : filter_trials_from_description detect rest labs with
      | error e2 => rw [hr] at h; exact absurd h (by simp)
      | ok pr2 =>
        obtain ⟨f2, e2⟩ := pr2
        rw [hr] at h
        cases inc with
        | true =>
          simp only [if_true, Except.ok.injEq, Prod.mk.injEq] at h
          rw [← h.2] at hx
          obtain ⟨t3, ht3, hp3⟩ := ih f2 e2 x (by rw [hr]) hx
          exact ⟨t3, List.mem_cons_of_mem _ ht3, hp3⟩
        | false =>
          simp only [Bool.false_eq_true, if_false, Except.ok.injEq, Prod.mk.injEq] at h
          rw [← h.2] at hx
          rcases List.mem_cons.mp hx with hxh | hxt
          · subst hxh
            exact ⟨hd, List.mem_cons_self _ _, hp⟩
          · obtain ⟨t3, ht3, hp3⟩ := ih f2 e2 x (by rw [hr]) hxt
            exact ⟨t3, List.mem_cons_of_mem _ ht3, hp3⟩

/-- Every member of the excluded partition records at least one failed
condition in its decision list. -/
theorem excluded_has_false (detect : DetectOracle) (labs : LabResults)
    (trials f e : List Trial) (x : Trial)
    (h : filter_trials_from_description detect trials labs = .ok (f, e))
    (hx : x ∈ e) :
    ∃ d ∈ x.filter_condition, d.2 = false := by
  obtain ⟨t, _, hp⟩ := filter_trials_excluded_src detect labs trials f e x h hx
  by_cases hc : find_conditions detect t.trial_json = []
  · rw [processTrial_empty detect labs t hc] at hp
    simp only [Except.ok.injEq, Prod.mk.injEq] at hp
    exact absurd hp.2 (by simp)
  · obtain ⟨hpc, _⟩ := processTrial_conds detect labs t x false hp hc
    exact processConds_false_mem labs _ _ hpc

/-! ## Lemmas about `split_description` and the chunkers -/

/-- With sufficient fuel, concatenating the split pieces restores the input,
and the piece list is never empty. -/
theorem splitAux_join :
    ∀ (fuel : Nat) (cs : List Char) (limit : Nat),
      cs.length ≤ fuel →
      (splitAux fuel cs limit).flatten = cs ∧ splitAux fuel cs limit ≠ [] := by
  intro fuel
  induction fuel with
  | zero =>
    intro cs limit _
    simp [splitAux]
  | succ n ih =>
    intro cs limit hlen
    by_cases h : limit < cs.length ∧ 0 < limit
    · have hrec := ih (cs.drop limit) limit (by simp only [List.length_drop]; omega)
      simp only [splitAux, if_pos h, List.flatten_cons, hrec.1,
        List.take_append_drop, ne_eq, List.cons_ne_nil, not_false_iff, and_self]
    · simp [splitAux, if_neg h]

/-- Every piece produced by `splitAux` with a positive limit and sufficient
fuel has length at most the limit. -/
theorem splitAux_le :
    ∀ (fuel : Nat) (cs : List Char) (limit : Nat),
      0 < limit → cs.length ≤ fuel →
      ∀ p ∈ splitAux fuel cs limit, p.length ≤ limit := by
  intro fuel
  induction fuel with
  | zero =>
    intro cs limit hpos hlen p hp
    simp only [splitAux, List.mem_singleton] at hp
    rw [hp]
    omega
  | succ n ih =>
    intro cs limit hpos hlen p hp
    by_cases h : limit < cs.length ∧ 0 < limit
    · simp only [splitAux, if_pos h, List.mem_cons] at hp
      rcases hp with hp | hp
      · rw [hp]; simp
      · exact ih (cs.drop limit) limit hpos
          (by simp only [List.length_drop]; omega) p hp
    · simp only [splitAux, if_neg h, List.mem_singleton] at hp
      rw [hp]
      omega

/-- `split_description` with a positive limit: every piece has length at most
the limit. -/
theorem split_description_le (cs : List Char) (limit : Nat) (hpos : 0 < limit) :
    ∀ p ∈ split_description cs limit, p.length ≤ limit :=
  splitAux_le cs.length cs limit hpos le_rfl

/-- With sufficient fuel, chunking concatenates back to the input list, the
chunk list is never empty, and every chunk has at most 10 trials. -/
theorem chunkAux_spec :
    ∀ (fuel : Nat) (ts : List Trial),
      ts.length ≤ fuel →
      (chunkAux fuel ts).flatten = ts ∧ chunkAux fuel ts ≠ [] ∧
      ∀ c ∈ chunkAux fuel ts, c.length ≤ 10 := by
  intro fuel
  induction fuel with
  | zero =>
    intro ts hlen
    refine ⟨by simp [chunkAux], by simp [chunkAux], ?_⟩
    intro c hc
    simp only [chunkAux, List.mem_singleton] at hc
    rw [hc]
    omega
  | succ n ih =>
    intro ts hlen
    by_cases h : 10 < ts.length
    · have hrec := ih (ts.drop 10) (by simp only [List.length_drop]; omega)
      refine ⟨?_, ?_, ?_⟩
      · simp only [chunkAux, if_pos h, List.flatten_cons, hrec.1,
          List.take_append_drop]
      · simp [chunkAux, if_pos h]
      · intro c hc
        simp only [chunkAux, if_pos h, List.mem_cons] at hc
        rcases hc with hc | hc
        · rw [hc]; simp
        · exact hrec.2.2 c hc
    · refine ⟨by simp [chunkAux, if_neg h], by simp [chunkAux, if_neg h], ?_⟩
      intro c hc
      simp only [chunkAux, if_neg h, List.mem_singleton] at hc
      rw [hc]
      omega

/-- The number of chunks for a list of `n` trials is `max 1 (ceil (n / 10))`:
one chunk even for an empty list, `ceil (n / 10)` chunks otherwise. -/
theorem chunkAux_length :
    ∀ (fuel : Nat) (ts : List Trial),
      ts.length ≤ fuel →
      (chunkAux fuel ts).length = max 1 ((ts.length + 9) / 10) := by
  intro fuel
  induction fuel with
  | zero =>
    intro ts hlen
    have : ts.length = 0 := by omega
    simp [chunkAux, this]
  | succ n ih =>
    intro ts hlen
    by_cases h : 10 < ts.length
    · have hrec := ih (ts.drop 10) (by simp only [List.length_drop]; omega)
      simp only [chunkAux, if_pos h, List.length_cons, hrec, List.length_drop]
      have h9 : (ts.length - 10 + 9) / 10 ≥ 1 := by
        have : 10 ≤ ts.length - 10 + 9 := by omega
        omega
      have h10 : ts.length + 9 = (ts.length - 10 + 9) + 10 := by omega
      rw [Nat.max_eq_right h9, h10, Nat.add_div_right _ (by norm_num)]
      have : 1 ≤ (ts.length - 10 + 9) / 10 + 1 := by omega
      rw [Nat.max_eq_right this]
    · have hle : (ts.length + 9) / 10 ≤ 1 := by
        have : ts.length + 9 < 20 := by omega
        omega
      simp only [chunkAux, if_neg h, List.length_singleton]
      omega

/-- `chunkTrials` never produces an empty chunk list: even a code with zero
trials gets one (empty) chunk task. -/
theorem chunkTrials_ne_nil (ts : List Trial) : chunkTrials ts ≠ [] :=
  (chunkAux_spec ts.length ts le_rfl).2.1

/-- Chunker invariant: if the pending buffer is within the limit, every chunk
the generator yields is within the limit. -/
theorem chunksAux_le (limit : Nat) (hpos : 0 < limit) :
    ∀ (ds : List (List Char)) (data : List Char),
      data.length ≤ limit →
      ∀ c ∈ chunksAux limit ds data, c.length ≤ limit := by
  intro ds
  induction ds with
  | nil =>
    intro data hdata c hc
    simp only [chunksAux, List.mem_singleton] at hc
    rw [hc]
    exact hdata
  | cons d rest ih =>
    intro data hdata c hc
    by_cases h1 : limit < d.length
    · simp only [chunksAux, if_pos h1, List.mem_append] at hc
      rcases hc with hc | hc
      · exact split_description_le d limit hpos c hc
      · exact ih data hdata c hc
    · by_cases h2 : limit < data.length + d.length
      · simp only [chunksAux, if_neg h1, if_pos h2, List.mem_cons] at hc
        rcases hc with hc | hc
        · rw [hc]; exact hdata
        · exact ih d (by omega) c hc
      · simp only [chunksAux, if_neg h1, if_neg h2] at hc
        exact ih (data ++ d) (by simp only [List.length_append]; omega) c hc

/-- The split pieces of an oversized entry are themselves yielded as chunks,
whatever the pending buffer. -/
theorem chunksAux_split_mem (limit : Nat) :
    ∀ (ds : List (List Char)) (data d : List Char),
      d ∈ ds → limit < d.length →
      ∀ p ∈ split_description d limit, p ∈ chunksAux limit ds data := by
  intro ds
  induction ds with
  | nil => intro data d hd _ p _; exact absurd hd (List.not_mem_nil d)
  | cons hd rest ih =>
    intro data d hdm hlen p hp
    rcases List.mem_cons.mp hdm with hh | ht
    · subst hh
      simp only [chunksAux, if_pos hlen]
      exact List.mem_append_left _ hp
    · by_cases h1 : limit < hd.length
      · simp only [chunksAux, if_pos h1]
        exact List.mem_append_right _ (ih data d ht hlen p hp)
      · by_cases h2 : limit < data.length + hd.length
        · simp only [chunksAux, if_neg h1, if_pos h2]
          exact List.mem_cons_of_mem _ (ih hd d ht hlen p hp)
        · simp only [chunksAux, if_neg h1, if_neg h2]
          exact ih (data ++ hd) d ht hlen p hp

/-! ## Lemmas about the orchestrator fan-in -/

/-- Running the tasks of a successful batch gives one result triple per task,
with each task's partition summing to its chunk's size. -/
theorem runTasks_sum (detect : DetectOracle) (labs : LabResults) :
    ∀ (tasks : List (NcitEntry × List Trial))
      (rs : List (NcitEntry × List Trial × List Trial)),
      runTasks detect labs tasks = .ok rs →
      ((rs.map (fun r => r.2.1)).flatten.length +
        (rs.map (fun r => r.2.2)).flatten.length =
        (tasks.map (fun t => t.2)).flatten.length) ∧
      rs.map (fun r => r.1) = tasks.map (fun t => t.1) := by
  intro tasks
  induction tasks with
  | nil =>
    intro rs h
    simp only [runTasks, Except.ok.injEq] at h
    rw [← h]
    simp
  | cons hd rest ih =>
    obtain ⟨r, c⟩ := hd
    intro rs h
    simp only [runTasks] at h
    cases hf : filter_trials_from_description detect c labs with
    | error e => rw [hf] at h; exact absurd h (by simp)
    | ok fe =>
      rw [hf] at h
      cases hr : runTasks detect labs rest with
      | error e => rw [hr] at h; exact absurd h (by simp)
      | ok rs2 =>
        rw [hr] at h
        simp only [Except.ok.injEq] at h
        obtain ⟨hsum, hkeys⟩ := ih rs2 (by rw [hr])
        have hlen := filter_trials_length detect labs c fe.1 fe.2 (by rw [hf])
        rw [← h]
        constructor
        · simp only [List.map_cons, List.flatten_cons, List.length_append]
          omega
        · simp only [List.map_cons, hkeys]

/-- The key list after merging one result. -/
theorem mergeInto_keys (acc : List Merged) (r : NcitEntry) (f e : List Trial) :
    (mergeInto acc r f e).map (fun m => m.key) =
      if r.ncit ∈ acc.map (fun m => m.key) then acc.map (fun m => m.key)
      else acc.map (fun m => m.key) ++ [r.ncit] := by
  by_cases h : acc.any (fun m => m.key == r.ncit)
  · have hmem : r.ncit ∈ acc.map (fun m => m.key) := by
      simp only [List.any_eq_true] at h
      obtain ⟨m, hm, hk⟩ := h
      exact List.mem_map.mpr ⟨m, hm, eq_of_beq hk⟩
    rw [if_pos hmem]
    unfold mergeInto
    rw [if_pos h, List.map_map]
    apply List.map_congr_left
    intro m _
    by_cases hk : m.key = r.ncit <;> simp [hk]
  · have hmem : r.ncit ∉ acc.map (fun m => m.key) := by
      simp only [List.any_eq_true] at h
      push_neg at h
      intro hc
      obtain ⟨m, hm, hkey⟩ := List.mem_map.mp hc
      exact h m hm (beq_iff_eq.mpr hkey)
    rw [if_neg hmem]
    unfold mergeInto
    rw [if_neg (by rw [Bool.not_eq_true]; exact Bool.eq_false_iff.mpr (fun hc => h hc))]
    simp

/-- A key appears among the merged groups exactly when it was the key of some
completed task (or was already accumulated). -/
theorem foldMerge_keys_mem :
    ∀ (rs : List (NcitEntry × List Trial × List Trial)) (acc : List Merged)
      (k : String),
      (k ∈ (rs.foldl (fun a r => mergeInto a r.1 r.2.1 r.2.2) acc).map
        (fun m => m.key)) ↔
      (k ∈ acc.map (fun m => m.key) ∨ k ∈ rs.map (fun r => r.1.ncit)) := by
  intro rs
  induction rs with
  | nil => intro acc k; simp
  | cons hd tl ih =>
    intro acc k
    simp only [List.foldl_cons, List.map_cons, List.mem_cons]
    rw [ih]
    rw [mergeInto_keys]
    by_cases h : hd.1.ncit ∈ acc.map (fun m => m.key)
    · rw [if_pos h]
      constructor
      · rintro (hk | hk)
        · exact Or.inl hk
        · exact Or.inr (Or.inr hk)
      · rintro (hk | hk | hk)
        · exact Or.inl hk
        · exact Or.inl (hk ▸ h)
        · exact Or.inr hk
    · rw [if_neg h]
      constructor
      · rintro (hk | hk)
        · rcases List.mem_append.mp hk with hk2 | hk2
          · exact Or.inl hk2
          · exact Or.inr (Or.inl (List.mem_singleton.mp hk2))
        · exact Or.inr (Or.inr hk)
      · rintro (hk | hk | hk)
        · exact Or.inl (List.mem_append_left _ hk)
        · exact Or.inl (List.mem_append_right _ (List.mem_singleton.mpr hk))
        · exact Or.inr hk

/-- Merging preserves distinctness of group keys. -/
theorem foldMerge_keys_nodup :
    ∀ (rs : List (NcitEntry × List Trial × List Trial)) (acc : List Merged),
      (acc.map (fun m => m.key)).Nodup →
      ((rs.foldl (fun a r => mergeInto a r.1 r.2.1 r.2.2) acc).map
        (fun m => m.key)).Nodup := by
  intro rs
  induction rs with
  | nil => intro acc h; exact h
  | cons hd tl ih =>
    intro acc h
    simp only [List.foldl_cons]
    apply ih
    rw [mergeInto_keys]
    by_cases hm : hd.1.ncit ∈ acc.map (fun m => m.key)
    · rw [if_pos hm]; exact h
    · rw [if_neg hm]
      rw [List.nodup_append]
      exact ⟨h, List.nodup_singleton _, by
        intro a ha hb
        rw [List.mem_singleton.mp hb] at ha
        exact hm ha⟩

/-- Every merged entry's stored code-info value carries the entry's key. -/
theorem foldMerge_ref_key :
    ∀ (rs : List (NcitEntry × List Trial × List Trial)) (acc : List Merged),
      (∀ m ∈ acc, m.ref.ncit = m.key) →
      ∀ m ∈ rs.foldl (fun a r => mergeInto a r.1 r.2.1 r.2.2) acc,
        m.ref.ncit = m.key := by
  intro rs
  induction rs with
  | nil => intro acc h; exact h
  | cons hd tl ih =>
    intro acc h
    simp only [List.foldl_cons]
    apply ih
    intro m hm
    unfold mergeInto at hm
    by_cases hc : acc.any (fun m2 => m2.key == hd.1.ncit)
    · rw [if_pos hc] at hm
      obtain ⟨m2, hm2, hup⟩ := List.mem_map.mp hm
      by_cases hk : m2.key = hd.1.ncit
      · rw [← hup]
        simp only [hk, if_pos rfl, beq_self_eq_true, if_true]
        exact (h m2 hm2).trans hk
      · rw [← hup]
        simp only [beq_iff_eq, hk, if_false]
        exact h m2 hm2
    · rw [if_neg hc] at hm
      rcases List.mem_append.mp hm with hm2 | hm2
      · exact h m hm2
      · rw [List.mem_singleton.mp hm2]

/-- Folding results that all carry the same code-info value onto a singleton
accumulator of that code concatenates the partitions. -/
theorem foldMerge_same_key (r : NcitEntry) :
    ∀ (rs : List (NcitEntry × List Trial × List Trial)) (F E : List Trial),
      (∀ x ∈ rs, x.1 = r) →
      rs.foldl (fun a x => mergeInto a x.1 x.2.1 x.2.2) [⟨r.ncit, r, F, E⟩] =
        [⟨r.ncit, r, F ++ (rs.map (fun x => x.2.1)).flatten,
          E ++ (rs.map (fun x => x.2.2)).flatten⟩] := by
  intro rs
  induction rs with
  | nil => intro F E _; simp
  | cons hd tl ih =>
    intro F E hall
    have hhd : hd.1 = r := hall hd (List.mem_cons_self _ _)
    simp only [List.foldl_cons]
    have hstep : mergeInto [⟨r.ncit, r, F, E⟩] hd.1 hd.2.1 hd.2.2 =
        [⟨r.ncit, r, F ++ hd.2.1, E ++ hd.2.2⟩] := by
      unfold mergeInto
      rw [hhd]
      simp
    rw [hstep, ih (F ++ hd.2.1) (E ++ hd.2.2)
      (fun x hx => hall x (List.mem_cons_of_mem _ hx))]
    simp only [List.map_cons, List.flatten_cons, List.append_assoc]

/-- When all completed tasks carry the same code-info value, the merge yields
a single group with the concatenated partitions. -/
theorem mergeResults_same_key (r : NcitEntry)
    (rs : List (NcitEntry × List Trial × List Trial))
    (hne : rs ≠ []) (hall : ∀ x ∈ rs, x.1 = r) :
    mergeResults rs =
      [⟨r.ncit, r, (rs.map (fun x => x.2.1)).flatten,
        (rs.map (fun x => x.2.2)).flatten⟩] := by
  cases rs with
  | nil => exact absurd rfl hne
  | cons hd tl =>
    have hhd : hd.1 = r := hall hd (List.mem_cons_self _ _)
    unfold mergeResults
    simp only [List.foldl_cons]
    have hstep : mergeInto [] hd.1 hd.2.1 hd.2.2 = [⟨r.ncit, r, hd.2.1, hd.2.2⟩] := by
      unfold mergeInto
      rw [hhd]
      simp
    rw [hstep, foldMerge_same_key r tl hd.2.1 hd.2.2
      (fun x hx => hall x (List.mem_cons_of_mem _ hx))]
    simp only [List.map_cons, List.flatten_cons]

/-- The keys of the spawned chunk tasks are exactly the input codes. -/
theorem chunk_tasks_keys (tbn : List TrialSet) (k : String) :
    k ∈ (chunk_tasks tbn).map (fun t => t.1.ncit) ↔
      ∃ ts ∈ tbn, ts.ncit.ncit = k := by
  unfold chunk_tasks
  constructor
  · intro h
    obtain ⟨task, htask, hk⟩ := List.mem_map.mp h
    obtain ⟨l, hl, htl⟩ := List.mem_flatten.mp htask
    obtain ⟨ts, hts, hlts⟩ := List.mem_map.mp hl
    rw [← hlts] at htl
    obtain ⟨c, _, hc⟩ := List.mem_map.mp htl
    refine ⟨ts, hts, ?_⟩
    rw [← hk, ← hc]
  · rintro ⟨ts, hts, hk⟩
    obtain ⟨c, hc⟩ := List.exists_mem_of_ne_nil _ (chunkTrials_ne_nil ts.trials)
    apply List.mem_map.mpr
    refine ⟨(ts.ncit, c), ?_, hk⟩
    apply List.mem_flatten.mpr
    exact ⟨(chunkTrials ts.trials).map (fun c2 => (ts.ncit, c2)),
      List.mem_map_of_mem _ hts, List.mem_map_of_mem _ hc⟩

/-! ## Concrete fixtures used by counterexamples and witnesses -/

/-- A detection oracle whose every call raises. -/
def detNone : DetectOracle := fun _ => none

/-- A detection oracle returning one qualified `platelets` entity. -/
def detEntity : DetectOracle := fun _ => some [⟨"platelets", ["decreased"]⟩]

/-- A trial whose text carries a well-formed mention of each cell type. -/
def trialThree : Trial :=
  ⟨"NCT00000001",
   [⟨true, "hemoglobin >= 10 g/dl platelets >= 100 k/ul leukocytes >= 3000 c/mcl"⟩],
   []⟩

/-- A trial mirroring the spec's end-to-end example thresholds. -/
def trialNums : Trial :=
  ⟨"NCT00000002",
   [⟨true, "hemoglobin >= 10 g/dl platelets >= 100000/ul leukocytes >= 3000/mcl"⟩],
   []⟩

/-- A trial whose text mentions a cell type without an operator. -/
def trialUnparsed : Trial := ⟨"NCT00000003", [⟨true, "platelets decreased"⟩], []⟩

/-- A trial with no eligibility text at all. -/
def trialEmpty : Trial := ⟨"NCT00000004", [], []⟩

/-! ## The claims -/

/-- C5: code_bug — `get_crosswalk` degrades a non-success response to
`(None, None)`, but a success response with no acceptable candidate (empty
`result`, or all candidates in the TCGA/OMFAQ/MPN-SAF exclusion list) makes
it subscript `None` and raise `TypeError`, which aborts the whole
`get_matches` batch instead of yielding a null match. -/
theorem C5_crosswalk_behavior :
    get_crosswalk ⟨200, []⟩ = .error () ∧
    get_crosswalk ⟨200, [⟨"TCGA", "tumor atlas"⟩]⟩ = .error () ∧
    get_crosswalk ⟨404, [⟨"C4872", "Breast Carcinoma"⟩]⟩ = .ok (none, none) ∧
    get_crosswalk ⟨200, [⟨"TCGA", "t"⟩, ⟨"C4872", "Breast Carcinoma"⟩]⟩ =
      .ok (some "C4872", some "Breast Carcinoma") ∧
    get_matches (fun _ => ⟨200, []⟩) ["C4872"] = .error () ∧
    get_matches (fun _ => ⟨500, []⟩) ["C4872"] = .ok [("C4872", none)] := by
  decide

/-- C9: every chunk handed to the entity-detection call has at most 19999
characters, and the split pieces of any oversized entry are themselves
yielded as chunks. -/
theorem C9_chunk_bound (descs : List String) :
    (∀ c ∈ getDescriptionChunks descs, c.length ≤ 19999) ∧
    (∀ d ∈ descs, 19999 < (preprocessEntry d).length →
      ∀ p ∈ split_description (preprocessEntry d) 19999,
        p ∈ getDescriptionChunks descs) := by
  constructor
  · intro c hc
    exact chunksAux_le 19999 (by norm_num) (descs.map preprocessEntry) []
      (by simp) c hc
  · intro d hd hlen p hp
    exact chunksAux_split_mem 19999 (descs.map preprocessEntry) []
      (preprocessEntry d) (List.mem_map_of_mem _ hd) hlen p hp

theorem C9_witness :
    "abc".data ∈ getDescriptionChunks ["abc"] ∧ ("abc".data).length ≤ 19999 :=
  ⟨by decide, (C9_chunk_bound ["abc"]).1 "abc".data (by decide)⟩

/-- C10: for a positive limit, the split pieces concatenate back to the
original string and the piece list is non-empty. -/
theorem C10_split_join (cs : List Char) (limit : Nat) (_hpos : 0 < limit) :
    (split_description cs limit).flatten = cs ∧ split_description cs limit ≠ [] :=
  splitAux_join cs.length cs limit le_rfl

theorem C10_witness :
    (split_description "abcdefgh".data 3).flatten = "abcdefgh".data ∧
    split_description "abcdefgh".data 3 ≠ [] :=
  C10_split_join "abcdefgh".data 3 (by norm_num)

/-- C3: a trial for which extraction returns zero conditions is always placed
in the filtered partition and never in the excluded partition. -/
theorem C3_no_conditions_filtered_in (detect : DetectOracle) (labs : LabResults)
    (trials f e : List Trial) (t : Trial)
    (hrun : filter_trials_from_description detect trials labs = .ok (f, e))
    (ht : t ∈ trials)
    (hc : find_conditions detect t.trial_json = []) :
    ∃ t2, t2 = { t with filter_condition := [("No Inclusion Criteria Found", true)] } ∧
      t2 ∈ f ∧ t2 ∉ e := by
  obtain ⟨t2, inc, hp2, hf, he⟩ := filter_trials_mem detect labs trials f e t hrun ht
  rw [processTrial_empty detect labs t hc] at hp2
  have hp3 := hp2
  simp only [Except.ok.injEq, Prod.mk.injEq] at hp3
  obtain ⟨ht2, hinc⟩ := hp3
  refine ⟨t2, ht2.symm, hf hinc.symm, ?_⟩
  intro hin
  obtain ⟨d, hd, hdf⟩ := excluded_has_false detect labs trials f e t2 hrun hin
  rw [← ht2] at hd
  simp only [List.mem_singleton] at hd
  rw [hd] at hdf
  exact absurd hdf (by simp)

theorem C3_witness :
    ∃ t2, t2 = { trialEmpty with
        filter_condition := [("No Inclusion Criteria Found", true)] } ∧
      t2 ∈ [{ trialEmpty with
        filter_condition := [("No Inclusion Criteria Found", true)] }] ∧
      t2 ∉ ([] : List Trial) :=
  C3_no_conditions_filtered_in detNone [] [trialEmpty]
    [{ trialEmpty with filter_condition := [("No Inclusion Criteria Found", true)] }]
    [] trialEmpty (by decide) (by decide) (by decide)

/-- C4: a condition whose cell type has no lab entry evaluates true and its
decision is recorded as passed; the include flag is false exactly when some
condition evaluates false; the flag decides the partition. -/
theorem C4_missing_lab_and_exclusion_iff (detect : DetectOracle)
    (labs : LabResults) (trials f e : List Trial) (t t2 : Trial) (inc : Bool)
    (hrun : filter_trials_from_description detect trials labs = .ok (f, e))
    (ht : t ∈ trials)
    (hp : processTrial detect labs t = .ok (t2, inc)) :
    (∀ p ∈ find_conditions detect t.trial_json, alGet labs p.1 = none →
      evalCond labs p.1 p.2 = .ok true ∧ (p.2, true) ∈ t2.filter_condition) ∧
    (inc = false ↔
      ∃ p ∈ find_conditions detect t.trial_json, evalCond labs p.1 p.2 = .ok false) ∧
    (inc = true → t2 ∈ f) ∧ (inc = false → t2 ∈ e) := by
  have hplace : (inc = true → t2 ∈ f) ∧ (inc = false → t2 ∈ e) := by
    obtain ⟨t3, inc3, hp3, hf3, he3⟩ := filter_trials_mem detect labs trials f e t hrun ht
    rw [hp] at hp3
    simp only [Except.ok.injEq, Prod.mk.injEq] at hp3
    rw [hp3.1, hp3.2]
    exact ⟨hf3, he3⟩
  by_cases hc : find_conditions detect t.trial_json = []
  · have hp2 := hp
    rw [processTrial_empty detect labs t hc] at hp2
    simp only [Except.ok.injEq, Prod.mk.injEq] at hp2
    refine ⟨?_, ?_, hplace.1, hplace.2⟩
    · intro p hpm
      rw [hc] at hpm
      exact absurd hpm (List.not_mem_nil p)
    · rw [← hp2.2, hc]
      simp
  · obtain ⟨hpc, _⟩ := processTrial_conds detect labs t t2 inc hp hc
    refine ⟨?_, processConds_inc labs _ _ inc hpc, hplace.1, hplace.2⟩
    intro p hpm hmiss
    have hev := evalCond_missing labs p.1 p.2 hmiss
    obtain ⟨b, hb, hmem⟩ := processConds_mem labs _ _ inc hpc p hpm
    rw [hev] at hb
    simp only [Except.ok.injEq] at hb
    rw [← hb] at hmem
    exact ⟨hev, hmem⟩

theorem C4_witness :
    evalCond [("platelets", ("90000", "/ul")), ("leukocytes", ("4000", "/mcl"))]
      "hemoglobin" "hemoglobin >= 10 g/dl" = .ok true ∧
    ("hemoglobin >= 10 g/dl", true) ∈
      ({ trialNums with filter_condition :=
        [("hemoglobin >= 10 g/dl", true), ("platelets >= 100000/ul", false),
         ("leukocytes >= 3000/mcl", true)] } : Trial).filter_condition ∧
    ({ trialNums with filter_condition :=
        [("hemoglobin >= 10 g/dl", true), ("platelets >= 100000/ul", false),
         ("leukocytes >= 3000/mcl", true)] } : Trial) ∈
      [{ trialNums with filter_condition :=
        [("hemoglobin >= 10 g/dl", true), ("platelets >= 100000/ul", false),
         ("leukocytes >= 3000/mcl", true)] }] := by
  have h := C4_missing_lab_and_exclusion_iff detNone
    [("platelets", ("90000", "/ul")), ("leukocytes", ("4000", "/mcl"))]
    [trialNums] []
    [{ trialNums with filter_condition :=
      [("hemoglobin >= 10 g/dl", true), ("platelets >= 100000/ul", false),
       ("leukocytes >= 3000/mcl", true)] }]
    trialNums
    { trialNums with filter_condition :=
      [("hemoglobin >= 10 g/dl", true), ("platelets >= 100000/ul", false),
       ("leukocytes >= 3000/mcl", true)] }
    false (by decide) (by decide) (by decide)
  have h1 := h.1 ("hemoglobin", "hemoglobin >= 10 g/dl") (by decide) (by decide)
  exact ⟨h1.1, h1.2, h.2.2.2 rfl⟩

/-- C1: counterexample — with the platelet lab value string `"0"`, the
platelet condition is recorded as failed (not passed) and the trial lands in
the excluded partition, contradicting the claimed forced pass. -/
theorem C1_counterexample :
    filter_trials_from_description detNone [trialThree]
        [("platelets", ("0", "k/ul"))] =
      .ok ([], [{ trialThree with filter_condition :=
        [("hemoglobin >= 10 g/dl", true), ("platelets >= 100 k/ul", false),
         ("leukocytes >= 3000 c/mcl", true)] }]) ∧
    ("platelets >= 100 k/ul", false) ∈
      ({ trialThree with filter_condition :=
        [("hemoglobin >= 10 g/dl", true), ("platelets >= 100 k/ul", false),
         ("leukocytes >= 3000 c/mcl", true)] } : Trial).filter_condition ∧
    ("platelets >= 100 k/ul", true) ∉
      ({ trialThree with filter_condition :=
        [("hemoglobin >= 10 g/dl", true), ("platelets >= 100 k/ul", false),
         ("leukocytes >= 3000 c/mcl", true)] } : Trial).filter_condition := by
  decide

/-- C1: amended — for every extracted condition, if the patient's lab value
string for its cell type is the literal `"0"`, the condition is recorded as
failed regardless of the operator, and the trial is excluded on it. -/
theorem C1_zero_lab_excludes (detect : DetectOracle) (labs : LabResults)
    (trials f e : List Trial) (t : Trial) (ct condition : String)
    (lv : String × String)
    (hrun : filter_trials_from_description detect trials labs = .ok (f, e))
    (ht : t ∈ trials)
    (hc : (ct, condition) ∈ find_conditions detect t.trial_json)
    (hlab : alGet labs ct = some lv)
    (hzero : lv.1 = "0") :
    ∃ t2 ∈ e, (condition, false) ∈ t2.filter_condition := by
  have hfalse : evalCond labs ct condition = .ok false :=
    evalCond_zero labs ct condition lv hlab hzero
  have hne : find_conditions detect t.trial_json ≠ [] := by
    intro hnil
    rw [hnil] at hc
    exact List.not_mem_nil _ hc
  obtain ⟨t2, inc, hp, hf, he⟩ := filter_trials_mem detect labs trials f e t hrun ht
  obtain ⟨hpc, _⟩ := processTrial_conds detect labs t t2 inc hp hne
  have hincf : inc = false :=
    (processConds_inc labs _ _ inc hpc).mpr ⟨(ct, condition), hc, hfalse⟩
  obtain ⟨b, hb, hmem⟩ := processConds_mem labs _ _ inc hpc (ct, condition) hc
  rw [hfalse] at hb
  simp only [Except.ok.injEq] at hb
  rw [← hb] at hmem
  exact ⟨t2, he hincf, hmem⟩

theorem C1_witness :
    ∃ t2 ∈ [{ trialThree with filter_condition :=
        [("hemoglobin >= 10 g/dl", true), ("platelets >= 100 k/ul", false),
         ("leukocytes >= 3000 c/mcl", true)] }],
      ("platelets >= 100 k/ul", false) ∈ t2.filter_condition :=
  C1_zero_lab_excludes detNone [("platelets", ("0", "k/ul"))] [trialThree] []
    [{ trialThree with filter_condition :=
      [("hemoglobin >= 10 g/dl", true), ("platelets >= 100 k/ul", false),
       ("leukocytes >= 3000 c/mcl", true)] }]
    trialThree "platelets" "platelets >= 100 k/ul" ("0", "k/ul")
    (by decide) (by decide) (by decide) (by decide) (by decide)

/-- C6: counterexample — a condition fragment with no operator-and-number
(from the entity-detection fallback) makes `convert_expressions` return the
`("0", "")` sentinel, and with a platelet lab value present the condition is
recorded as failed and the trial excluded, contradicting the claimed
"no constraint, always passes". -/
theorem C6_counterexample :
    convert_expressions ("150", "k/ul") "plateletsdecreased" = ("0", "") ∧
    filter_trials_from_description detEntity [trialUnparsed]
        [("platelets", ("150", "k/ul"))] =
      .ok ([], [{ trialUnparsed with
        filter_condition := [("plateletsdecreased", false)] }]) ∧
    ("plateletsdecreased", true) ∉
      ({ trialUnparsed with
        filter_condition := [("plateletsdecreased", false)] } : Trial).filter_condition := by
  decide

/-- C6: amended — when the narrower regex finds no operator-and-number in a
condition fragment, `convert_expressions` returns the sentinel `("0", "")`;
for a patient with a lab value for that cell type the condition is then
recorded as failed and the trial is excluded on it (only a missing lab value
makes it pass). -/
theorem C6_no_operator_excludes (detect : DetectOracle) (labs : LabResults)
    (trials f e : List Trial) (t : Trial) (ct condition : String)
    (lv : String × String)
    (hrun : filter_trials_from_description detect trials labs = .ok (f, e))
    (ht : t ∈ trials)
    (hc : (ct, condition) ∈ find_conditions detect t.trial_json)
    (hlab : alGet labs ct = some lv)
    (hnm : narrowFirst condition.data = none) :
    convert_expressions lv condition = ("0", "") ∧
    ∃ t2 ∈ e, (condition, false) ∈ t2.filter_condition := by
  have hfalse : evalCond labs ct condition = .ok false :=
    evalCond_noMatch labs ct condition lv hlab hnm
  have hne : find_conditions detect t.trial_json ≠ [] := by
    intro hnil
    rw [hnil] at hc
    exact List.not_mem_nil _ hc
  obtain ⟨t2, inc, hp, hf, he⟩ := filter_trials_mem detect labs trials f e t hrun ht
  obtain ⟨hpc, _⟩ := processTrial_conds detect labs t t2 inc hp hne
  have hincf : inc = false :=
    (processConds_inc labs _ _ inc hpc).mpr ⟨(ct, condition), hc, hfalse⟩
  obtain ⟨b, hb, hmem⟩ := processConds_mem labs _ _ inc hpc (ct, condition) hc
  rw [hfalse] at hb
  simp only [Except.ok.injEq] at hb
  rw [← hb] at hmem
  exact ⟨convert_expressions_noMatch lv condition hnm, t2, he hincf, hmem⟩

theorem C6_witness :
    convert_expressions ("150", "k/ul") "plateletsdecreased" = ("0", "") ∧
    ∃ t2 ∈ [{ trialUnparsed with
        filter_condition := [("plateletsdecreased", false)] }],
      ("plateletsdecreased", false) ∈ t2.filter_condition :=
  C6_no_operator_excludes detEntity [("platelets", ("150", "k/ul"))]
    [trialUnparsed] []
    [{ trialUnparsed with filter_condition := [("plateletsdecreased", false)] }]
    trialUnparsed "platelets" "plateletsdecreased" ("150", "k/ul")
    (by decide) (by decide) (by decide) (by decide) (by decide)

/-- C8: when the scan of the joined description yields exactly three matches
with pairwise distinct cell types, `find_conditions` returns exactly those
three conditions and the entity-detection fallback is never invoked. -/
theorem C8_fast_path (detect : DetectOracle) (tj : List UnstructuredEntry)
    (w1 w2 w3 c1 c2 c3 : String)
    (hm : findAll (joinedDescription tj) = [(w1, c1), (w2, c2), (w3, c3)])
    (h12 : c1 ≠ c2) (h13 : c1 ≠ c3) (h23 : c2 ≠ c3) :
    find_conditionsF detect tj = ([(c1, w1), (c2, w2), (c3, w3)], false) := by
  have hdesc : (joinedDescription tj).isEmpty = false := by
    cases hd : joinedDescription tj with
    | nil =>
      rw [hd] at hm
      exact absurd hm.symm (by simp [findAll, findAllAux])
    | cons a b => rfl
  unfold find_conditionsF
  simp only [hdesc, Bool.false_eq_true, if_false, hm]
  have hcond :
      ([(w1, c1), (w2, c2), (w3, c3)].foldl
        (fun acc m => alUpsert acc m.2 m.1) []) = [(c1, w1), (c2, w2), (c3, w3)] := by
    simp [alUpsert, h12, h13, h23]
  simp [hcond]

theorem C8_witness :
    find_conditionsF detNone trialThree.trial_json =
      ([("hemoglobin", "hemoglobin >= 10 g/dl"),
        ("platelets", "platelets >= 100 k/ul"),
        ("leukocytes", "leukocytes >= 3000 c/mcl")], false) :=
  C8_fast_path detNone trialThree.trial_json
    "hemoglobin >= 10 g/dl" "platelets >= 100 k/ul" "leukocytes >= 3000 c/mcl"
    "hemoglobin" "platelets" "leukocytes"
    (by decide) (by decide) (by decide) (by decide)

/-- C2: counterexample — a code whose trial list is empty still spawns one
chunk task, while ceil(0/10) = 0. -/
theorem C2_counterexample :
    (chunk_tasks [⟨⟨"C123"⟩, []⟩]).length = 1 ∧ (0 + 9) / 10 = 0 := by
  decide

/-- C2: amended — for one code with N trials, the orchestrator spawns exactly
`max 1 (ceil (N / 10))` chunk tasks (one task even for an empty list), each
chunk holds at most 10 trials, and on successful completion the code's
filtered and excluded trial counts sum to N. -/
theorem C2_chunk_tasks_and_sum (detect : DetectOracle) (labs : LabResults)
    (r : NcitEntry) (ts : List Trial) (f e : List OutGroup)
    (hrun : filter_by_inclusion_criteria detect [⟨r, ts⟩] labs = .ok (f, e)) :
    (chunk_tasks [⟨r, ts⟩]).length = max 1 ((ts.length + 9) / 10) ∧
    (∀ task ∈ chunk_tasks [⟨r, ts⟩], task.2.length ≤ 10) ∧
    ∃ F E, f = [⟨r, F⟩] ∧ e = [⟨r, E⟩] ∧ F.length + E.length = ts.length := by
  have hct : chunk_tasks [⟨r, ts⟩] = (chunkTrials ts).map (fun c => (r, c)) := by
    unfold chunk_tasks
    simp
  have hcount : (chunk_tasks [⟨r, ts⟩]).length = max 1 ((ts.length + 9) / 10) := by
    rw [hct, List.length_map]
    exact chunkAux_length ts.length ts le_rfl
  have hbound : ∀ task ∈ chunk_tasks [⟨r, ts⟩], task.2.length ≤ 10 := by
    intro task htask
    rw [hct] at htask
    obtain ⟨c, hc, heq⟩ := List.mem_map.mp htask
    rw [← heq]
    exact (chunkAux_spec ts.length ts le_rfl).2.2 c hc
  unfold filter_by_inclusion_criteria at hrun
  cases hrt : runTasks detect labs (chunk_tasks [⟨r, ts⟩]) with
  | error e2 => rw [hrt] at hrun; exact absurd hrun (by simp)
  | ok rs =>
    rw [hrt] at hrun
    simp only [Except.ok.injEq, Prod.mk.injEq] at hrun
    obtain ⟨hsum, hkeys⟩ := runTasks_sum detect labs _ rs hrt
    have hallr : ∀ x ∈ rs, x.1 = r := by
      intro x hx
      have hx1 : x.1 ∈ rs.map (fun t => t.1) := List.mem_map_of_mem _ hx
      rw [hkeys, hct, List.map_map] at hx1
      obtain ⟨c, _, hc⟩ := List.mem_map.mp hx1
      exact hc.symm
    have hne : rs ≠ [] := by
      intro hnil
      rw [hnil] at hkeys
      have h0 : (chunk_tasks [⟨r, ts⟩]).map (fun t => t.1) = [] := hkeys.symm
      rw [hct, List.map_map] at h0
      exact chunkTrials_ne_nil ts (List.map_eq_nil_iff.mp h0)
    have hmr := mergeResults_same_key r rs hne hallr
    rw [hmr] at hrun
    refine ⟨hcount, hbound, (rs.map (fun x => x.2.1)).flatten,
      (rs.map (fun x => x.2.2)).flatten, ?_, ?_, ?_⟩
    · rw [← hrun.1]
      simp
    · rw [← hrun.2]
      simp
    · rw [hsum, hct, List.map_map]
      calc ((chunkTrials ts).map ((fun t => t.2) ∘ fun c => (r, c))).flatten.length
          = (chunkTrials ts).flatten.length := by
            congr 1
            simp
        _ = ts.length := by
            unfold chunkTrials
            rw [(chunkAux_spec ts.length ts le_rfl).1]

theorem C2_witness :
    (chunk_tasks [⟨⟨"C200"⟩, [trialEmpty]⟩]).length =
      max 1 ((([trialEmpty] : List Trial).length + 9) / 10) ∧
    (∀ task ∈ chunk_tasks [⟨⟨"C200"⟩, [trialEmpty]⟩], task.2.length ≤ 10) ∧
    ∃ F E,
      ([⟨⟨"C200"⟩, [{ trialEmpty with
        filter_condition := [("No Inclusion Criteria Found", true)] }]⟩] :
          List OutGroup) = [⟨⟨"C200"⟩, F⟩] ∧
      ([⟨⟨"C200"⟩, []⟩] : List OutGroup) = [⟨⟨"C200"⟩, E⟩] ∧
      F.length + E.length = ([trialEmpty] : List Trial).length :=
  C2_chunk_tasks_and_sum detNone [] ⟨"C200"⟩ [trialEmpty]
    [⟨⟨"C200"⟩, [{ trialEmpty with
      filter_condition := [("No Inclusion Criteria Found", true)] }]⟩]
    [⟨⟨"C200"⟩, []⟩] (by decide)

/-- C7: counterexample — a code with zero trials still gets one dispatched
(empty) chunk task and therefore appears, with an empty trial list, in both
output partitions, contradicting the claimed omission. -/
theorem C7_counterexample :
    filter_by_inclusion_criteria detNone [⟨⟨"C123"⟩, []⟩] [] =
      .ok ([⟨⟨"C123"⟩, []⟩], [⟨⟨"C123"⟩, []⟩]) := by
  decide

/-- C7: amended — on success, each partition has exactly one group per
distinct input code: every input code (at least one chunk task is dispatched
for each, including codes with empty trial lists) has a group, there are no
other groups, group codes are distinct, and both partitions carry the same
code sequence. -/
theorem C7_groups_per_code (detect : DetectOracle) (tbn : List TrialSet)
    (labs : LabResults) (f e : List OutGroup)
    (hrun : filter_by_inclusion_criteria detect tbn labs = .ok (f, e)) :
    (∀ ts ∈ tbn, ∃ g ∈ f, g.ncit.ncit = ts.ncit.ncit) ∧
    (∀ g ∈ f, ∃ ts ∈ tbn, g.ncit.ncit = ts.ncit.ncit) ∧
    (f.map (fun g => g.ncit.ncit)).Nodup ∧
    e.map (fun g => g.ncit.ncit) = f.map (fun g => g.ncit.ncit) := by
  unfold filter_by_inclusion_criteria at hrun
  cases hrt : runTasks detect labs (chunk_tasks tbn) with
  | error e2 => rw [hrt] at hrun; exact absurd hrun (by simp)
  | ok rs =>
    rw [hrt] at hrun
    simp only [Except.ok.injEq, Prod.mk.injEq] at hrun
    obtain ⟨hf, he⟩ := hrun
    obtain ⟨_, hkeys⟩ := runTasks_sum detect labs _ rs hrt
    have hrefkey : ∀ m ∈ mergeResults rs, m.ref.ncit = m.key :=
      foldMerge_ref_key rs [] (by intro m hm; exact absurd hm (List.not_mem_nil m))
    have hfkeys : f.map (fun g => g.ncit.ncit) =
        (mergeResults rs).map (fun m => m.key) := by
      rw [← hf, List.map_map]
      exact List.map_congr_left (fun m hm => hrefkey m hm)
    have hekeys : e.map (fun g => g.ncit.ncit) =
        (mergeResults rs).map (fun m => m.key) := by
      rw [← he, List.map_map]
      exact List.map_congr_left (fun m hm => hrefkey m hm)
    have hmk : ∀ k, k ∈ (mergeResults rs).map (fun m => m.key) ↔
        ∃ ts ∈ tbn, ts.ncit.ncit = k := by
      intro k
      unfold mergeResults
      rw [foldMerge_keys_mem rs [] k]
      simp only [List.map_nil, List.not_mem_nil, false_or]
      have hrk : rs.map (fun x => x.1.ncit) =
          (chunk_tasks tbn).map (fun t => t.1.ncit) := by
        have := congrArg (List.map (fun x : NcitEntry => x.ncit)) hkeys
        rw [List.map_map, List.map_map] at this
        exact this
      constructor
      · intro hk
        obtain ⟨x, hx, hxk⟩ := List.mem_map.mp hk
        have : x.1.ncit ∈ rs.map (fun x => x.1.ncit) := List.mem_map_of_mem _ hx
        rw [hrk] at this
        rw [← hxk]
        exact (chunk_tasks_keys tbn x.1.ncit).mp this
      · intro hts
        have := (chunk_tasks_keys tbn k).mpr hts
        rw [← hrk] at this
        obtain ⟨x, hx, hxk⟩ := List.mem_map.mp this
        exact List.mem_map.mpr ⟨x, hx, hxk⟩
    refine ⟨?_, ?_, ?_, by rw [hekeys, hfkeys]⟩
    · intro ts hts
      have hk : ts.ncit.ncit ∈ (mergeResults rs).map (fun m => m.key) :=
        (hmk ts.ncit.ncit).mpr ⟨ts, hts, rfl⟩
      rw [← hfkeys] at hk
      obtain ⟨g, hg, hgk⟩ := List.mem_map.mp hk
      exact ⟨g, hg, hgk⟩
    · intro g hg
      have hk : g.ncit.ncit ∈ f.map (fun g2 => g2.ncit.ncit) :=
        List.mem_map_of_mem _ hg
      rw [hfkeys] at hk
      obtain ⟨ts, hts, htsk⟩ := (hmk g.ncit.ncit).mp hk
      exact ⟨ts, hts, htsk.symm⟩
    · rw [hfkeys]
      exact foldMerge_keys_nodup rs [] (by simp)

theorem C7_witness :
    (∀ ts ∈ [(⟨⟨"C123"⟩, []⟩ : TrialSet)],
      ∃ g ∈ [(⟨⟨"C123"⟩, []⟩ : OutGroup)], g.ncit.ncit = ts.ncit.ncit) ∧
    (∀ g ∈ [(⟨⟨"C123"⟩, []⟩ : OutGroup)],
      ∃ ts ∈ [(⟨⟨"C123"⟩, []⟩ : TrialSet)], g.ncit.ncit = ts.ncit.ncit) ∧
    (([(⟨⟨"C123"⟩, []⟩ : OutGroup)]).map (fun g => g.ncit.ncit)).Nodup ∧
    ([(⟨⟨"C123"⟩, []⟩ : OutGroup)]).map (fun g => g.ncit.ncit) =
      ([(⟨⟨"C123"⟩, []⟩ : OutGroup)]).map (fun g => g.ncit.ncit) :=
  C7_groups_per_code detNone [⟨⟨"C123"⟩, []⟩] [] [⟨⟨"C123"⟩, []⟩]
    [⟨⟨"C123"⟩, []⟩] (by decide)
